import Mathlib

/-!
Verification of the binary decision-tree design (`tree_design.py`):
node hierarchy, staged tree builder (splitting / stopping / pruning),
pre-order iterator and counting visitors are shallowly embedded below,
and the documented properties are proved about the embedding.
-/

namespace TreeDesign

/-- A node of the tree.  `leaf` embeds `LeafNode` (an opaque textual value,
no children); `decision` embeds `DecisionNode` with its two nullable child
slots `left_child` / `right_child`. -/
inductive Tree where
  | leaf (value : String)
  | decision (left : Option Tree) (right : Option Tree)

/-- Number of nodes of a tree (counting from the root). -/
def Tree.size : Tree → Nat
  | .leaf _ => 1
  | .decision none none => 1
  | .decision none (some rc) => 1 + rc.size
  | .decision (some lc) none => 1 + lc.size
  | .decision (some lc) (some rc) => 1 + lc.size + rc.size

/-- Whether a node is a leaf node (`isinstance(node, LeafNode)`). -/
def isLeaf : Tree → Bool
  | .leaf _ => true
  | .decision _ _ => false

/-- Number of leaf nodes of a tree. -/
def leafCount : Tree → Nat
  | .leaf _ => 1
  | .decision none none => 0
  | .decision none (some rc) => leafCount rc
  | .decision (some lc) none => leafCount lc
  | .decision (some lc) (some rc) => leafCount lc + leafCount rc

/-- Full binary tree check: every decision node has both children present,
recursively. -/
def isFull : Tree → Bool
  | .leaf _ => true
  | .decision none _ => false
  | .decision (some _) none => false
  | .decision (some lc) (some rc) => isFull lc && isFull rc

/-! ### Leaf labels

The splitting stage labels new leaves with Python's `f"{count:02d}"`:
the decimal digits of the counter, left-padded with `'0'` to at least two
characters.  `decDigits` is a fuel-based (hence kernel-evaluable) rendering
of the decimal digits, least significant first, proved below to agree with
`Nat.digits 10`. -/

/-- Decimal digits, least significant first, with explicit fuel. -/
def decDigitsAux : Nat → Nat → List Nat
  | _, 0 => []
  | 0, _ + 1 => []
  | fuel + 1, n + 1 => ((n + 1) % 10) :: decDigitsAux fuel ((n + 1) / 10)

/-- Decimal digits of `n`, least significant first (`[]` for `0`). -/
def decDigits (n : Nat) : List Nat := decDigitsAux n n

/-- Digit list of the label of `n`: decimal digits, most significant first,
left-padded with `0` to length at least two. -/
def padDigits (n : Nat) : List Nat :=
  let ds := (decDigits n).reverse
  List.replicate (2 - ds.length) 0 ++ ds

/-- The character of a single decimal digit. -/
def digitChar (d : Nat) : Char := Char.ofNat (48 + d)

/-- The label `f"{n:02d}"`: decimal value of `n`, zero-padded to at least
two digits. -/
def padLabel (n : Nat) : String := String.mk ((padDigits n).map digitChar)

/-! ### The splitting stage -/

/-- Result of `SplittingState._make_split`: the updated counter
(`new_leaf_count`), the updated tree, and — for specification purposes —
the labels of the leaves created, in creation order. -/
structure SplitResult where
  count : Nat
  tree : Tree
  labels : List String

/-- Embedding of `SplittingState._make_split`: on a decision node, fill an absent left
child with a freshly labelled leaf (incrementing the counter first) or
recurse into a present left child, then do the same for the right child;
a leaf node is left untouched. -/
def make_split : Nat → Tree → SplitResult
  | cnt, .leaf v => ⟨cnt, .leaf v, []⟩
  | cnt, .decision none none =>
      ⟨cnt + 2,
       .decision (some (.leaf (padLabel (cnt + 1)))) (some (.leaf (padLabel (cnt + 2)))),
       [padLabel (cnt + 1), padLabel (cnt + 2)]⟩
  | cnt, .decision none (some rc) =>
      let R := make_split (cnt + 1) rc
      ⟨R.count, .decision (some (.leaf (padLabel (cnt + 1)))) (some R.tree),
       padLabel (cnt + 1) :: R.labels⟩
  | cnt, .decision (some lc) none =>
      let L := make_split cnt lc
      ⟨L.count + 1, .decision (some L.tree) (some (.leaf (padLabel (L.count + 1)))),
       L.labels ++ [padLabel (L.count + 1)]⟩
  | cnt, .decision (some lc) (some rc) =>
      let L := make_split cnt lc
      let R := make_split L.count rc
      ⟨R.count, .decision (some L.tree) (some R.tree), L.labels ++ R.labels⟩

/-- Counter value after the left slot of a decision node with left child
`l` has been handled by `_make_split` with incoming counter `cnt`. -/
def leftCountAfter (cnt : Nat) (l : Option Tree) : Nat :=
  match l with
  | none => cnt + 1
  | some lc => (make_split cnt lc).count

/-! ### Builder and construction states -/

/-- The three construction states of the builder. -/
inductive StateTag where
  | splitting
  | stopping
  | pruning
  deriving DecidableEq

/-- Embedding of `TreeBuilder`: the root (absent for a fresh builder) and the current
state (absent initially). -/
structure TreeBuilder where
  root : Option Tree
  state : Option StateTag

/-- Embedding of `SplittingState.handle`: seed an absent root with a bare decision node,
then run `_make_split` from the root with this instance's fresh counter. -/
def splitting_handle (b : TreeBuilder) : TreeBuilder :=
  let r0 := match b.root with
    | none => Tree.decision none none
    | some t => t
  { b with root := some (make_split 0 r0).tree }

/-- Dispatch of `State.handle`: splitting mutates the tree, stopping and
pruning have no structural effect. -/
def handle : StateTag → TreeBuilder → TreeBuilder
  | .splitting, b => splitting_handle b
  | .stopping, b => b
  | .pruning, b => b

/-- Embedding of `TreeBuilder.set_state`. -/
def set_state (b : TreeBuilder) (s : Option StateTag) : TreeBuilder :=
  { b with state := s }

/-- Embedding of `TreeBuilder.run_step`: if a state is assigned, delegate to its handler
and record which stage ran (the diagnostic trace); otherwise do nothing. -/
def run_step (b : TreeBuilder) : TreeBuilder × List StateTag :=
  match b.state with
  | none => (b, [])
  | some s => (handle s b, [s])

/-- Embedding of `TreeBuilder.build_tree`: set and run splitting, then stopping, then
pruning; the second component is the trace of stages that actually ran. -/
def build_tree (b : TreeBuilder) : TreeBuilder × List StateTag :=
  let p1 := run_step (set_state b (some .splitting))
  let p2 := run_step (set_state p1.1 (some .stopping))
  let p3 := run_step (set_state p2.1 (some .pruning))
  (p3.1, p1.2 ++ p2.2 ++ p3.2)

/-! ### Child attachment (`DecisionNode.add_child` family)

The argument of the Python methods is an arbitrary value, first checked
with `isinstance(child, Node)`; `ChildArg.nonNode` stands for any non-node
argument.  Each operation returns the error raised (if any) together with
the decision node's child slots after the call, so that "the tree is left
unchanged on failure" is directly expressible. -/

/-- Argument passed to a child-attachment method. -/
inductive ChildArg where
  | node (t : Tree)
  | nonNode

/-- Errors raised by the child-attachment methods. -/
inductive AddError where
  | invalidArgument
  | leftOccupied
  | rightOccupied
  | bothOccupied

/-- The two child slots of a `DecisionNode`. -/
structure Slots where
  left_child : Option Tree
  right_child : Option Tree

/-- Embedding of `DecisionNode.add_left_child`: reject a non-node argument, fail if the
left slot is occupied, otherwise fill the left slot. -/
def add_left_child (s : Slots) (c : ChildArg) : Option AddError × Slots :=
  match c with
  | .nonNode => (some .invalidArgument, s)
  | .node t =>
    match s.left_child with
    | some _ => (some .leftOccupied, s)
    | none => (none, { s with left_child := some t })

/-- Embedding of `DecisionNode.add_right_child`: reject a non-node argument, fail if the
right slot is occupied, otherwise fill the right slot. -/
def add_right_child (s : Slots) (c : ChildArg) : Option AddError × Slots :=
  match c with
  | .nonNode => (some .invalidArgument, s)
  | .node t =>
    match s.right_child with
    | some _ => (some .rightOccupied, s)
    | none => (none, { s with right_child := some t })

/-- Embedding of `DecisionNode.add_child`: fill the left slot if empty, else the right
slot if empty, else fail because both slots are occupied. -/
def add_child (s : Slots) (c : ChildArg) : Option AddError × Slots :=
  match s.left_child with
  | none => add_left_child s c
  | some _ =>
    match s.right_child with
    | none => add_right_child s c
    | some _ => (some .bothOccupied, s)

/-! ### Pre-order iterator -/

/-- The value handed to the `Iterator` constructor: `None`, a node, or any
other (non-node, non-`None`) value. -/
inductive RootArg where
  | absent
  | node (t : Tree)
  | nonNode

/-- Error raised by the `Iterator` constructor. -/
inductive IterError where
  | invalidArgument

/-- State of a `PreOrderIterator`: the explicit stack, topmost element first
(the Python list keeps the top at its end). -/
structure PreOrderIterator where
  stack : List Tree

/-- Embedding of `Iterator.__init__`: an absent root gives an empty stack (a notice is
printed, no error); a node seeds the stack with itself; any other value
raises `ValueError`. -/
def mkIterator : RootArg → Except IterError PreOrderIterator
  | .absent => .ok ⟨[]⟩
  | .node t => .ok ⟨[t]⟩
  | .nonNode => .error .invalidArgument

/-- Embedding of `PreOrderIterator.__next__`: an empty stack signals `StopIteration`
(`none`); otherwise pop the top node and, if it is a decision node, push
its present right child then its present left child. -/
def nextNode (it : PreOrderIterator) : Option (Tree × PreOrderIterator) :=
  match it.stack with
  | [] => none
  | .leaf v :: rest => some (.leaf v, ⟨rest⟩)
  | .decision none none :: rest => some (.decision none none, ⟨rest⟩)
  | .decision none (some rc) :: rest => some (.decision none (some rc), ⟨rc :: rest⟩)
  | .decision (some lc) none :: rest => some (.decision (some lc) none, ⟨lc :: rest⟩)
  | .decision (some lc) (some rc) :: rest =>
      some (.decision (some lc) (some rc), ⟨lc :: rc :: rest⟩)

/-- Total size of the nodes still on the stack (termination measure of a
full iteration). -/
def stackSize (l : List Tree) : Nat := (l.map Tree.size).sum

/-- Drain a stack: the list of nodes yielded by repeated `__next__` pops
starting from the given stack, until it is empty. -/
def drainStack : List Tree → List Tree
  | [] => []
  | .leaf v :: rest => .leaf v :: drainStack rest
  | .decision none none :: rest => .decision none none :: drainStack rest
  | .decision none (some rc) :: rest => .decision none (some rc) :: drainStack (rc :: rest)
  | .decision (some lc) none :: rest => .decision (some lc) none :: drainStack (lc :: rest)
  | .decision (some lc) (some rc) :: rest =>
      .decision (some lc) (some rc) :: drainStack (lc :: rc :: rest)
  termination_by l => stackSize l
  decreasing_by
    all_goals simp [stackSize, Tree.size]
    all_goals omega

/-- Exhaust the iterator: the list of nodes yielded by repeated
`__next__` calls until `StopIteration`. -/
def runIterator (it : PreOrderIterator) : List Tree := drainStack it.stack

/-- Pre-order as the specification states it: the root first, then the
whole left subtree in pre-order, then the whole right subtree in
pre-order.  (`Modelled from the spec` side of the refinement; the code side
is `runIterator`.) -/
def preorderSpec : Tree → List Tree
  | .leaf v => [.leaf v]
  | .decision none none => [.decision none none]
  | .decision none (some rc) => .decision none (some rc) :: preorderSpec rc
  | .decision (some lc) none => .decision (some lc) none :: preorderSpec lc
  | .decision (some lc) (some rc) =>
      .decision (some lc) (some rc) :: (preorderSpec lc ++ preorderSpec rc)

/-- Positions (root-to-node paths; `false` = left, `true` = right) of all
nodes of a tree, in pre-order. -/
def positions : Tree → List (List Bool)
  | .leaf _ => [[]]
  | .decision none none => [[]]
  | .decision none (some rc) => [] :: (positions rc).map (List.cons true)
  | .decision (some lc) none => [] :: (positions lc).map (List.cons false)
  | .decision (some lc) (some rc) =>
      [] :: ((positions lc).map (List.cons false) ++ (positions rc).map (List.cons true))

/-- The node of a tree at a given position, if any. -/
def subtreeAt : Tree → List Bool → Option Tree
  | t, [] => some t
  | .leaf _, _ :: _ => none
  | .decision none _, false :: _ => none
  | .decision (some lc) _, false :: q => subtreeAt lc q
  | .decision _ none, true :: _ => none
  | .decision _ (some rc), true :: q => subtreeAt rc q

/-! ### Leaf-counting visitor -/

/-- Accumulator state of `CountLeavesVisitor`. -/
structure CountLeavesVisitor where
  leaf_count : Nat

/-- Embedding of `node.accept(visitor)` for a `CountLeavesVisitor`: double dispatch
reaches `visit_leaf_node` (increment the count) on a leaf and
`visit_decision_node` (no state change) on a decision node. -/
def acceptCount (t : Tree) (v : CountLeavesVisitor) : CountLeavesVisitor :=
  match t with
  | .leaf _ => ⟨v.leaf_count + 1⟩
  | .decision _ _ => v

/-- Accept the visitor on every node of a list, in order. -/
def runCountVisitor (nodes : List Tree) (v : CountLeavesVisitor) : CountLeavesVisitor :=
  nodes.foldl (fun acc n => acceptCount n acc) v

/-! ### Parent back-references

The type `PTree` refines `Tree` with the `parent` field of the Python nodes.  A
parent reference is represented by the parent's position (root-to-node
path); `none` embeds Python's `None`. -/

/-- A node together with its `parent` back-reference. -/
inductive PTree where
  | pleaf (value : String) (parent : Option (List Bool))
  | pdecision (parent : Option (List Bool)) (left : Option PTree) (right : Option PTree)

/-- The `parent` field of a node. -/
def parentOf : PTree → Option (List Bool)
  | .pleaf _ p => p
  | .pdecision p _ _ => p

/-- Result of `_make_split` on the parent-annotated model. -/
structure PSplitResult where
  count : Nat
  tree : PTree

/-- Embedding of `SplittingState._make_split` on the parent-annotated model; `path` is
the position of the node being split, so a leaf created in one of its
slots gets `parent := some path` (the Python code passes `parent=node` to
the `LeafNode` constructor). -/
def make_splitP (path : List Bool) : Nat → PTree → PSplitResult
  | cnt, .pleaf v p => ⟨cnt, .pleaf v p⟩
  | cnt, .pdecision p none none =>
      ⟨cnt + 2,
       .pdecision p (some (.pleaf (padLabel (cnt + 1)) (some path)))
                    (some (.pleaf (padLabel (cnt + 2)) (some path)))⟩
  | cnt, .pdecision p none (some rc) =>
      let R := make_splitP (path ++ [true]) (cnt + 1) rc
      ⟨R.count, .pdecision p (some (.pleaf (padLabel (cnt + 1)) (some path))) (some R.tree)⟩
  | cnt, .pdecision p (some lc) none =>
      let L := make_splitP (path ++ [false]) cnt lc
      ⟨L.count + 1, .pdecision p (some L.tree) (some (.pleaf (padLabel (L.count + 1)) (some path)))⟩
  | cnt, .pdecision p (some lc) (some rc) =>
      let L := make_splitP (path ++ [false]) cnt lc
      let R := make_splitP (path ++ [true]) L.count rc
      ⟨R.count, .pdecision p (some L.tree) (some R.tree)⟩

/-- The node of a parent-annotated tree at a given position, if any. -/
def getNodeP : PTree → List Bool → Option PTree
  | t, [] => some t
  | .pleaf _ _, _ :: _ => none
  | .pdecision _ none _, false :: _ => none
  | .pdecision _ (some lc) _, false :: q => getNodeP lc q
  | .pdecision _ _ none, true :: _ => none
  | .pdecision _ _ (some rc), true :: q => getNodeP rc q

/-- Every child of every decision node of `t` (which sits at position
`path`) has its `parent` field set to the position of the decision node
holding it. -/
def childrenParented (path : List Bool) : PTree → Bool
  | .pleaf _ _ => true
  | .pdecision _ none none => true
  | .pdecision _ none (some rc) =>
      (parentOf rc == some path) && childrenParented (path ++ [true]) rc
  | .pdecision _ (some lc) none =>
      (parentOf lc == some path) && childrenParented (path ++ [false]) lc
  | .pdecision _ (some lc) (some rc) =>
      ((parentOf lc == some path) && childrenParented (path ++ [false]) lc) &&
      ((parentOf rc == some path) && childrenParented (path ++ [true]) rc)

/-- Embedding of `SplittingState.handle` on the parent-annotated model: seed an absent
root with a bare decision node (`DecisionNode()` has `parent=None`), then
split from the root, whose position is `[]`. -/
def splitting_handleP (root : Option PTree) : Option PTree :=
  let r0 := match root with
    | none => PTree.pdecision none none none
    | some t => t
  some (make_splitP [] 0 r0).tree

/-! ## Lemmas about labels -/

theorem decDigitsAux_eq (fuel : Nat) : ∀ n, n ≤ fuel → decDigitsAux fuel n = Nat.digits 10 n := by
  induction fuel with
  | zero =>
    intro n hn
    interval_cases n
    simp [decDigitsAux]
  | succ fuel ih =>
    intro n hn
    match n with
    | 0 => simp [decDigitsAux]
    | m + 1 =>
      rw [decDigitsAux, Nat.digits_def' (b := 10) (by norm_num) (Nat.succ_pos m)]
      have hdiv : (m + 1) / 10 ≤ fuel := by
        have := Nat.div_lt_self (Nat.succ_pos m) (by norm_num : 1 < 10)
        omega
      rw [ih _ hdiv]

theorem decDigits_eq (n : Nat) : decDigits n = Nat.digits 10 n :=
  decDigitsAux_eq n n (le_refl n)

theorem ofDigits_replicate_zero (k : Nat) : Nat.ofDigits 10 (List.replicate k 0) = 0 := by
  induction k with
  | zero => simp [Nat.ofDigits]
  | succ k ih => simp [List.replicate_succ, Nat.ofDigits_cons, ih]

/-- Reading the padded digit list back (most significant first) recovers `n`:
the padding zeros are high-order zeros and do not change the value. -/
theorem ofDigits_padDigits (n : Nat) : Nat.ofDigits 10 (padDigits n).reverse = n := by
  unfold padDigits
  rw [List.reverse_append, List.reverse_replicate, List.reverse_reverse, decDigits_eq,
    Nat.ofDigits_append, Nat.ofDigits_digits, ofDigits_replicate_zero]
  simp

theorem padDigits_injective : Function.Injective padDigits := by
  intro m n h
  have hm := ofDigits_padDigits m
  have hn := ofDigits_padDigits n
  rw [h, hn] at hm
  exact hm.symm

theorem padDigits_lt (n : Nat) : ∀ d ∈ padDigits n, d < 10 := by
  intro d hd
  unfold padDigits at hd
  simp only [List.mem_append, List.mem_replicate, List.mem_reverse] at hd
  rcases hd with ⟨_, rfl⟩ | hd
  · norm_num
  · rw [decDigits_eq] at hd
    exact Nat.digits_lt_base (by norm_num) hd

theorem digitChar_inj {d e : Nat} (hd : d < 10) (he : e < 10)
    (h : digitChar d = digitChar e) : d = e := by
  unfold digitChar at h
  interval_cases d <;> interval_cases e <;> first | rfl | exact absurd h (by decide)

theorem map_digitChar_inj : ∀ (l1 l2 : List Nat), (∀ d ∈ l1, d < 10) → (∀ d ∈ l2, d < 10) →
    l1.map digitChar = l2.map digitChar → l1 = l2
  | [], [], _, _, _ => rfl
  | [], _ :: _, _, _, h => by simp at h
  | _ :: _, [], _, _, h => by simp at h
  | a :: l1, b :: l2, h1, h2, h => by
    simp only [List.map_cons, List.cons.injEq] at h
    have ha : a = b := digitChar_inj (h1 a (by simp)) (h2 b (by simp)) h.1
    have hl : l1 = l2 :=
      map_digitChar_inj l1 l2 (fun d hd => h1 d (by simp [hd])) (fun d hd => h2 d (by simp [hd])) h.2
    rw [ha, hl]

theorem padLabel_injective : Function.Injective padLabel := by
  intro m n h
  unfold padLabel at h
  have hdata : (padDigits m).map digitChar = (padDigits n).map digitChar :=
    congrArg String.data h
  exact padDigits_injective (map_digitChar_inj _ _ (padDigits_lt m) (padDigits_lt n) hdata)

theorem padLabel_length (n : Nat) : 2 ≤ (padLabel n).length := by
  unfold padLabel padDigits
  simp only [String.length, List.length_map, List.length_append, List.length_replicate]
  omega

/-! ## Lemmas about the splitting stage -/

theorem make_split_count_le : ∀ (cnt : Nat) (t : Tree), cnt ≤ (make_split cnt t).count
  | _, .leaf _ => le_refl _
  | cnt, .decision none none => by simp [make_split]
  | cnt, .decision none (some rc) => by
    have h := make_split_count_le (cnt + 1) rc
    simp only [make_split]
    omega
  | cnt, .decision (some lc) none => by
    have h := make_split_count_le cnt lc
    simp only [make_split]
    omega
  | cnt, .decision (some lc) (some rc) => by
    have h1 := make_split_count_le cnt lc
    have h2 := make_split_count_le (make_split cnt lc).count rc
    simp only [make_split]
    omega

theorem isFull_make_split : ∀ (cnt : Nat) (t : Tree), isFull (make_split cnt t).tree = true
  | _, .leaf _ => rfl
  | cnt, .decision none none => by simp [make_split, isFull]
  | cnt, .decision none (some rc) => by
    have h := isFull_make_split (cnt + 1) rc
    simp [make_split, isFull, h]
  | cnt, .decision (some lc) none => by
    have h := isFull_make_split cnt lc
    simp [make_split, isFull, h]
  | cnt, .decision (some lc) (some rc) => by
    have h1 := isFull_make_split cnt lc
    have h2 := isFull_make_split (make_split cnt lc).count rc
    simp [make_split, isFull, h1, h2]

/-- The labels created by one `_make_split` run with incoming counter `cnt`
are exactly the consecutive counter values `cnt+1, …, final`, rendered by
`padLabel`, in that order. -/
theorem make_split_labels_range : ∀ (cnt : Nat) (t : Tree),
    (make_split cnt t).labels
      = (List.range' (cnt + 1) ((make_split cnt t).count - cnt)).map padLabel
  | _, .leaf _ => by simp [make_split]
  | cnt, .decision none none => by
    simp only [make_split]
    have h2 : cnt + 2 - cnt = 2 := by omega
    rw [h2, List.range'_succ, List.range'_succ]
    simp
  | cnt, .decision none (some rc) => by
    have hle := make_split_count_le (cnt + 1) rc
    have ih := make_split_labels_range (cnt + 1) rc
    simp only [make_split]
    have hk : (make_split (cnt + 1) rc).count - cnt
        = ((make_split (cnt + 1) rc).count - (cnt + 1)) + 1 := by omega
    rw [hk, List.range'_succ]
    simp [ih]
  | cnt, .decision (some lc) none => by
    have hle := make_split_count_le cnt lc
    have ih := make_split_labels_range cnt lc
    simp only [make_split]
    have hk : (make_split cnt lc).count + 1 - cnt
        = 1 + ((make_split cnt lc).count - cnt) := by omega
    rw [hk, ← List.range'_append_1]
    have hs : cnt + 1 + ((make_split cnt lc).count - cnt) = (make_split cnt lc).count + 1 := by
      omega
    rw [hs]
    simp [ih, List.range'_succ]
  | cnt, .decision (some lc) (some rc) => by
    have hle1 := make_split_count_le cnt lc
    have hle2 := make_split_count_le (make_split cnt lc).count rc
    have ih1 := make_split_labels_range cnt lc
    have ih2 := make_split_labels_range (make_split cnt lc).count rc
    simp only [make_split]
    have hk : (make_split (make_split cnt lc).count rc).count - cnt
        = ((make_split (make_split cnt lc).count rc).count - (make_split cnt lc).count)
          + ((make_split cnt lc).count - cnt) := by omega
    rw [hk, ← List.range'_append_1]
    have hs : cnt + 1 + ((make_split cnt lc).count - cnt) = (make_split cnt lc).count + 1 := by
      omega
    rw [hs]
    simp [ih1, ih2]

/-! ## Lemmas about the iterator -/

/-- Draining a stack yields the pre-order of the top node followed by the
drain of the rest: the pushed children are consumed before the remainder
of the stack. -/
theorem drainStack_cons : ∀ (t : Tree) (rest : List Tree),
    drainStack (t :: rest) = preorderSpec t ++ drainStack rest
  | .leaf v, rest => by
    rw [drainStack]
    simp [preorderSpec]
  | .decision none none, rest => by
    rw [drainStack]
    simp [preorderSpec]
  | .decision none (some rc), rest => by
    rw [drainStack, drainStack_cons rc rest]
    simp [preorderSpec]
  | .decision (some lc) none, rest => by
    rw [drainStack, drainStack_cons lc rest]
    simp [preorderSpec]
  | .decision (some lc) (some rc), rest => by
    rw [drainStack, drainStack_cons lc (rc :: rest), drainStack_cons rc rest]
    simp [preorderSpec]
  termination_by t rest => stackSize (t :: rest)
  decreasing_by
    all_goals simp [stackSize, Tree.size]
    all_goals omega

theorem drainStack_nil : drainStack [] = [] := by rw [drainStack]

/-- The code-side iterator, run to exhaustion from a root, is exactly the
spec-side recursive pre-order. -/
theorem runIterator_eq_preorderSpec (t : Tree) : runIterator ⟨[t]⟩ = preorderSpec t := by
  rw [runIterator]
  simp [drainStack_cons, drainStack_nil]

theorem preorderSpec_length : ∀ t : Tree, (preorderSpec t).length = t.size
  | .leaf _ => rfl
  | .decision none none => rfl
  | .decision none (some rc) => by
    simp [preorderSpec, Tree.size, preorderSpec_length rc]
    omega
  | .decision (some lc) none => by
    simp [preorderSpec, Tree.size, preorderSpec_length lc]
    omega
  | .decision (some lc) (some rc) => by
    simp [preorderSpec, Tree.size, preorderSpec_length lc, preorderSpec_length rc]
    omega

theorem positions_nodup : ∀ t : Tree, (positions t).Nodup
  | .leaf _ => by simp [positions]
  | .decision none none => by simp [positions]
  | .decision none (some rc) => by
    simp only [positions, List.nodup_cons]
    refine ⟨by simp, (positions_nodup rc).map (fun a b h => by simpa using h)⟩
  | .decision (some lc) none => by
    simp only [positions, List.nodup_cons]
    refine ⟨by simp, (positions_nodup lc).map (fun a b h => by simpa using h)⟩
  | .decision (some lc) (some rc) => by
    simp only [positions, List.nodup_cons]
    constructor
    · simp
    · refine List.Nodup.append
        ((positions_nodup lc).map (fun a b h => by simpa using h))
        ((positions_nodup rc).map (fun a b h => by simpa using h)) ?_
      intro p hp hq
      simp only [List.mem_map] at hp hq
      obtain ⟨a, _, rfl⟩ := hp
      obtain ⟨b, _, hb⟩ := hq
      exact absurd hb (by simp)

/-- The positions of a tree, read in order, address exactly the nodes of
the pre-order sequence: node number `i` of the traversal lives at position
number `i`. -/
theorem positions_map_subtreeAt : ∀ t : Tree,
    (positions t).map (subtreeAt t) = (preorderSpec t).map some
  | .leaf _ => rfl
  | .decision none none => rfl
  | .decision none (some rc) => by
    simp only [positions, preorderSpec, List.map_cons, List.map_map, subtreeAt]
    refine congrArg _ ?_
    have : (subtreeAt (Tree.decision none (some rc)) ∘ List.cons true) = subtreeAt rc := by
      funext q
      simp [subtreeAt, Function.comp]
    rw [this, positions_map_subtreeAt rc]
  | .decision (some lc) none => by
    simp only [positions, preorderSpec, List.map_cons, List.map_map, subtreeAt]
    refine congrArg _ ?_
    have : (subtreeAt (Tree.decision (some lc) none) ∘ List.cons false) = subtreeAt lc := by
      funext q
      simp [subtreeAt, Function.comp]
    rw [this, positions_map_subtreeAt lc]
  | .decision (some lc) (some rc) => by
    simp only [positions, preorderSpec, List.map_cons, List.map_append, List.map_map, subtreeAt]
    refine congrArg _ ?_
    have hl : (subtreeAt (Tree.decision (some lc) (some rc)) ∘ List.cons false) = subtreeAt lc := by
      funext q
      simp [subtreeAt, Function.comp]
    have hr : (subtreeAt (Tree.decision (some lc) (some rc)) ∘ List.cons true) = subtreeAt rc := by
      funext q
      simp [subtreeAt, Function.comp]
    rw [hl, hr, positions_map_subtreeAt lc, positions_map_subtreeAt rc]

/-! ## Lemmas about the leaf-counting visitor -/

theorem countP_isLeaf_preorderSpec : ∀ t : Tree,
    (preorderSpec t).countP isLeaf = leafCount t
  | .leaf _ => rfl
  | .decision none none => rfl
  | .decision none (some rc) => by
    simp [preorderSpec, List.countP_cons, isLeaf, leafCount,
      countP_isLeaf_preorderSpec rc]
  | .decision (some lc) none => by
    simp [preorderSpec, List.countP_cons, isLeaf, leafCount,
      countP_isLeaf_preorderSpec lc]
  | .decision (some lc) (some rc) => by
    simp [preorderSpec, List.countP_cons, List.countP_append, isLeaf, leafCount,
      countP_isLeaf_preorderSpec lc, countP_isLeaf_preorderSpec rc]

/-- Accepting the visitor on a list of nodes adds the number of leaf nodes
of the list to the running count. -/
theorem runCountVisitor_count : ∀ (nodes : List Tree) (v : CountLeavesVisitor),
    (runCountVisitor nodes v).leaf_count = v.leaf_count + nodes.countP isLeaf
  | [], v => by simp [runCountVisitor]
  | n :: ns, v => by
    have ih := runCountVisitor_count ns (acceptCount n v)
    have hstep : runCountVisitor (n :: ns) v = runCountVisitor ns (acceptCount n v) := rfl
    rw [hstep, ih, List.countP_cons]
    cases n <;> simp [acceptCount, isLeaf] ; omega

/-! ## Lemmas about parent back-references -/

theorem parentOf_pleaf (v : String) (p : Option (List Bool)) :
    parentOf (.pleaf v p) = p := rfl

theorem parentOf_pdecision (p : Option (List Bool)) (l r : Option PTree) :
    parentOf (.pdecision p l r) = p := rfl

/-- Splitting a node never changes that node's own `parent` field. -/
theorem parentOf_make_splitP (path : List Bool) (cnt : Nat) (t : PTree) :
    parentOf (make_splitP path cnt t).tree = parentOf t := by
  match t with
  | .pleaf v p => rfl
  | .pdecision p none none => rfl
  | .pdecision p none (some rc) => rfl
  | .pdecision p (some lc) none => rfl
  | .pdecision p (some lc) (some rc) => rfl

/-- If every pre-existing child of `t` (sitting at position `path`) is
correctly parented, so is every child after the split: the freshly created
leaves point back at the decision node whose slot they fill, and nobody
else's parent moves. -/
theorem childrenParented_make_splitP : ∀ (t : PTree) (path : List Bool) (cnt : Nat),
    childrenParented path t = true →
    childrenParented path (make_splitP path cnt t).tree = true
  | .pleaf _ _, _, _, _ => rfl
  | .pdecision p none none, path, cnt, _ => by
    simp [make_splitP, childrenParented, parentOf_pleaf]
  | .pdecision p none (some rc), path, cnt, h => by
    simp only [childrenParented, Bool.and_eq_true, beq_iff_eq] at h
    have ih := childrenParented_make_splitP rc (path ++ [true]) (cnt + 1) h.2
    simp [make_splitP, childrenParented, parentOf_pleaf, parentOf_make_splitP, h.1, ih]
  | .pdecision p (some lc) none, path, cnt, h => by
    simp only [childrenParented, Bool.and_eq_true, beq_iff_eq] at h
    have ih := childrenParented_make_splitP lc (path ++ [false]) cnt h.2
    simp [make_splitP, childrenParented, parentOf_pleaf, parentOf_make_splitP, h.1, ih]
  | .pdecision p (some lc) (some rc), path, cnt, h => by
    simp only [childrenParented, Bool.and_eq_true, beq_iff_eq] at h
    have ih1 := childrenParented_make_splitP lc (path ++ [false]) cnt h.1.2
    have ih2 := childrenParented_make_splitP rc (path ++ [true])
      (make_splitP (path ++ [false]) cnt lc).count h.2.2
    simp [make_splitP, childrenParented, parentOf_make_splitP, h.1.1, h.2.1, ih1, ih2]

/-- Every node present before the split is still present at its position
afterwards, with its `parent` field unchanged. -/
theorem getNodeP_make_splitP : ∀ (q : List Bool) (t : PTree) (path : List Bool) (cnt : Nat)
    (n : PTree), getNodeP t q = some n →
    ∃ n', getNodeP (make_splitP path cnt t).tree q = some n' ∧ parentOf n' = parentOf n
  | [], t, path, cnt, n, h => by
    have hn : n = t := by
      simpa [getNodeP] using h.symm
    exact ⟨(make_splitP path cnt t).tree, by simp [getNodeP], by
      rw [parentOf_make_splitP, hn]⟩
  | false :: q, t, path, cnt, n, h => by
    match t with
    | .pleaf _ _ => simp [getNodeP] at h
    | .pdecision p none r => simp [getNodeP] at h
    | .pdecision p (some lc) none =>
      have hq : getNodeP lc q = some n := by simpa [getNodeP] using h
      obtain ⟨n', hn', hp⟩ := getNodeP_make_splitP q lc (path ++ [false]) cnt n hq
      exact ⟨n', by simpa [make_splitP, getNodeP] using hn', hp⟩
    | .pdecision p (some lc) (some rc) =>
      have hq : getNodeP lc q = some n := by simpa [getNodeP] using h
      obtain ⟨n', hn', hp⟩ := getNodeP_make_splitP q lc (path ++ [false]) cnt n hq
      exact ⟨n', by simpa [make_splitP, getNodeP] using hn', hp⟩
  | true :: q, t, path, cnt, n, h => by
    match t with
    | .pleaf _ _ => simp [getNodeP] at h
    | .pdecision p _ none => simp [getNodeP] at h
    | .pdecision p none (some rc) =>
      have hq : getNodeP rc q = some n := by simpa [getNodeP] using h
      obtain ⟨n', hn', hp⟩ := getNodeP_make_splitP q rc (path ++ [true]) (cnt + 1) n hq
      exact ⟨n', by simpa [make_splitP, getNodeP] using hn', hp⟩
    | .pdecision p (some lc) (some rc) =>
      have hq : getNodeP rc q = some n := by simpa [getNodeP] using h
      obtain ⟨n', hn', hp⟩ := getNodeP_make_splitP q rc (path ++ [true])
        (make_splitP (path ++ [false]) cnt lc).count n hq
      exact ⟨n', by simpa [make_splitP, getNodeP] using hn', hp⟩

/-- Counter value after the left slot of a parent-annotated decision node
at position `path` with left child `l` has been handled, with incoming
counter `cnt`. -/
def leftCountAfterP (path : List Bool) (cnt : Nat) (l : Option PTree) : Nat :=
  match l with
  | none => cnt + 1
  | some lc => (make_splitP (path ++ [false]) cnt lc).count

/-! ## Claim theorems -/

/-- C1: after one application of the splitting stage (and hence after one
`buildTree` pass) the tree is a full binary tree — every decision node has
both child slots populated; a slot that was empty is filled with a new
leaf, an existing leaf child is returned untouched, and an existing
decision child receives the same completion recursively. -/
theorem splitting_completes_to_full_tree :
    (∀ cnt t, isFull (make_split cnt t).tree = true) ∧
    (∀ cnt v, make_split cnt (.leaf v) = ⟨cnt, .leaf v, []⟩) ∧
    (∀ cnt l r, (make_split cnt (.decision l r)).tree =
        .decision
          (some (match l with
                 | none => Tree.leaf (padLabel (cnt + 1))
                 | some lc => (make_split cnt lc).tree))
          (some (match r with
                 | none => Tree.leaf (padLabel (leftCountAfter cnt l + 1))
                 | some rc => (make_split (leftCountAfter cnt l) rc).tree))) ∧
    (∀ b, ∃ t, (build_tree b).1.root = some t ∧ isFull t = true) := by
  refine ⟨isFull_make_split, fun cnt v => rfl, fun cnt l r => ?_, fun b => ?_⟩
  · cases l <;> cases r <;> rfl
  · obtain ⟨r, s⟩ := b
    cases r with
    | none => exact ⟨_, rfl, isFull_make_split 0 _⟩
    | some t => exact ⟨_, rfl, isFull_make_split 0 _⟩

/-- C2: the pre-order iterator over a root yields the root first, then the
whole left subtree in pre-order, then the whole right subtree in
pre-order. -/
theorem preorder_iterator_yields_preorder :
    (∀ t, runIterator ⟨[t]⟩ = preorderSpec t) ∧
    (∀ l r, runIterator ⟨[Tree.decision (some l) (some r)]⟩ =
        Tree.decision (some l) (some r) :: (preorderSpec l ++ preorderSpec r)) := by
  refine ⟨runIterator_eq_preorderSpec, fun l r => ?_⟩
  rw [runIterator_eq_preorderSpec]
  rfl

/-- C3 (counterexample): after `build_tree` returns on a fresh builder, the
builder's state is still assigned (it is the pruning state), contradicting
the claim that no state is assigned. -/
theorem build_tree_keeps_state_assigned :
    (build_tree ⟨none, none⟩).1.state ≠ none := by decide

/-- C3 (amended): `build_tree` runs exactly the three stages splitting,
stopping, pruning in that order, one `run_step` invocation per stage, and
when it returns the builder's current state is the pruning state (the last
one set), not absent. -/
theorem build_tree_runs_stages_in_order (b : TreeBuilder) :
    (build_tree b).2 = [StateTag.splitting, StateTag.stopping, StateTag.pruning] ∧
    (build_tree b).1.state = some StateTag.pruning := by
  obtain ⟨r, s⟩ := b
  cases r <;> exact ⟨rfl, rfl⟩

/-- C4: a fresh leaf-counting visitor accepted by every node yielded by a
full traversal ends with a count equal to the number of leaves of the
tree, regardless of the order in which the nodes are visited. -/
theorem count_leaves_counts_leaves (t : Tree) (nodes : List Tree)
    (h : nodes.Perm (runIterator ⟨[t]⟩)) :
    (runCountVisitor nodes ⟨0⟩).leaf_count = leafCount t := by
  rw [runCountVisitor_count, h.countP_eq isLeaf, runIterator_eq_preorderSpec,
    countP_isLeaf_preorderSpec]
  simp

/-- C4 witness: the visitor applied to the reversed traversal of a
two-leaf tree counts 2 leaves. -/
theorem count_leaves_counts_leaves_witness :
    (runCountVisitor (runIterator ⟨[Tree.decision (some (.leaf "a")) (some (.leaf "b"))]⟩).reverse
      ⟨0⟩).leaf_count = leafCount (Tree.decision (some (.leaf "a")) (some (.leaf "b"))) :=
  count_leaves_counts_leaves _ _ (List.reverse_perm _)

/-- C5: attaching a child to a decision node with both slots occupied
fails with the both-slots-occupied error, attaching to an occupied left or
right slot fails, attaching a non-node fails with the invalid-argument
error, and in every failure case the child slots are unchanged. -/
theorem add_child_failure_leaves_slots_unchanged :
    (∀ lt rt c, add_child ⟨some lt, some rt⟩ c = (some .bothOccupied, ⟨some lt, some rt⟩)) ∧
    (∀ lt r c, ∃ e, add_left_child ⟨some lt, r⟩ c = (some e, ⟨some lt, r⟩)) ∧
    (∀ l rt c, ∃ e, add_right_child ⟨l, some rt⟩ c = (some e, ⟨l, some rt⟩)) ∧
    (∀ s, add_left_child s .nonNode = (some .invalidArgument, s)) ∧
    (∀ s, add_right_child s .nonNode = (some .invalidArgument, s)) ∧
    (∀ s, ∃ e, add_child s ChildArg.nonNode = (some e, s)) := by
  refine ⟨fun lt rt c => ?_, fun lt r c => ?_, fun l rt c => ?_,
    fun s => rfl, fun s => rfl, fun s => ?_⟩
  · cases c <;> rfl
  · cases c with
    | node t => exact ⟨.leftOccupied, rfl⟩
    | nonNode => exact ⟨.invalidArgument, rfl⟩
  · cases c with
    | node t => exact ⟨.rightOccupied, rfl⟩
    | nonNode => exact ⟨.invalidArgument, rfl⟩
  · obtain ⟨l, r⟩ := s
    cases l with
    | none => exact ⟨.invalidArgument, rfl⟩
    | some lt =>
      cases r with
      | none => exact ⟨.invalidArgument, rfl⟩
      | some rt => exact ⟨.bothOccupied, rfl⟩

/-- C6: the labels assigned by one splitting run are the renderings of the
consecutive counter values after the incoming one — pairwise distinct,
strictly increasing in assignment order and zero-padded to at least two
digits. -/
theorem split_labels_distinct_increasing_padded (cnt : Nat) (t : Tree) :
    ∃ k, (make_split cnt t).count = cnt + k ∧
      (make_split cnt t).labels = (List.range' (cnt + 1) k).map padLabel ∧
      List.Pairwise (· < ·) (List.range' (cnt + 1) k) ∧
      (make_split cnt t).labels.Nodup ∧
      ∀ s ∈ (make_split cnt t).labels, 2 ≤ s.length := by
  refine ⟨(make_split cnt t).count - cnt, ?_, make_split_labels_range cnt t, ?_, ?_, ?_⟩
  · have := make_split_count_le cnt t
    omega
  · exact List.pairwise_lt_range' _ _
  · rw [make_split_labels_range cnt t]
    exact ((List.nodup_range' _ _).map padLabel_injective)
  · intro s hs
    rw [make_split_labels_range cnt t] at hs
    obtain ⟨x, _, rfl⟩ := List.mem_map.mp hs
    exact padLabel_length x

/-- C6 witness: instantiation at a bare decision node with counter 0. -/
theorem split_labels_distinct_increasing_padded_witness :
    ∃ k, (make_split 0 (Tree.decision none none)).count = 0 + k ∧
      (make_split 0 (Tree.decision none none)).labels = (List.range' (0 + 1) k).map padLabel ∧
      List.Pairwise (· < ·) (List.range' (0 + 1) k) ∧
      (make_split 0 (Tree.decision none none)).labels.Nodup ∧
      ∀ s ∈ (make_split 0 (Tree.decision none none)).labels, 2 ≤ s.length :=
  split_labels_distinct_increasing_padded 0 (Tree.decision none none)

/-- C7: constructing a traversal from an absent root succeeds and yields
the empty sequence (the first request signals end-of-sequence, not an
error), while a non-absent non-node argument fails construction with the
invalid-argument error. -/
theorem iterator_construction_edge_cases :
    mkIterator .absent = .ok ⟨[]⟩ ∧
    nextNode ⟨[]⟩ = none ∧
    runIterator ⟨[]⟩ = [] ∧
    mkIterator .nonNode = .error .invalidArgument ∧
    ∀ t, mkIterator (.node t) = .ok ⟨[t]⟩ :=
  ⟨rfl, rfl, drainStack_nil, rfl, fun _ => rfl⟩

/-- C8: iterating from any root terminates, yielding exactly the pre-order
sequence, whose length is the number of nodes; the node positions are
pairwise distinct and enumerate the traversal one-to-one (each reachable
node is yielded exactly once), and once the stack is empty every further
request signals end-of-sequence. -/
theorem preorder_iteration_terminates_once_each (t : Tree) :
    runIterator ⟨[t]⟩ = preorderSpec t ∧
    (runIterator ⟨[t]⟩).length = t.size ∧
    (positions t).Nodup ∧
    (positions t).map (subtreeAt t) = (preorderSpec t).map some ∧
    nextNode ⟨[]⟩ = none :=
  ⟨runIterator_eq_preorderSpec t,
   by rw [runIterator_eq_preorderSpec, preorderSpec_length],
   positions_nodup t,
   positions_map_subtreeAt t,
   rfl⟩

/-- C9: from a fresh builder, one `build_tree` call produces a decision
root with exactly the two leaf children labelled "01" and "02"; pre-order
traversal yields root, leaf "01", leaf "02" in that order, and the
leaf-counting visitor applied to every yielded node ends at 2. -/
theorem build_then_traverse_then_count_scenario :
    (build_tree ⟨none, none⟩).1.root
      = some (Tree.decision (some (.leaf "01")) (some (.leaf "02"))) ∧
    runIterator ⟨[Tree.decision (some (.leaf "01")) (some (.leaf "02"))]⟩
      = [Tree.decision (some (.leaf "01")) (some (.leaf "02")), .leaf "01", .leaf "02"] ∧
    (runCountVisitor
      (runIterator ⟨[Tree.decision (some (.leaf "01")) (some (.leaf "02"))]⟩)
      ⟨0⟩).leaf_count = 2 := by
  have hrun : runIterator ⟨[Tree.decision (some (.leaf "01")) (some (.leaf "02"))]⟩
      = [Tree.decision (some (.leaf "01")) (some (.leaf "02")), .leaf "01", .leaf "02"] := by
    rw [runIterator_eq_preorderSpec]
    rfl
  refine ⟨rfl, hrun, ?_⟩
  rw [hrun]
  rfl

/-- C10: a leaf created by the splitting stage has its parent reference
set, at creation, to the decision node whose empty slot it fills; the
stage never changes the parent reference of a pre-existing node; and after
one pass from an empty builder every non-root node's parent reference is
the decision node holding it. -/
theorem splitting_sets_parents_correctly :
    (∀ path cnt p l r, (make_splitP path cnt (.pdecision p l r)).tree =
        .pdecision p
          (some (match l with
                 | none => PTree.pleaf (padLabel (cnt + 1)) (some path)
                 | some lc => (make_splitP (path ++ [false]) cnt lc).tree))
          (some (match r with
                 | none => PTree.pleaf (padLabel (leftCountAfterP path cnt l + 1)) (some path)
                 | some rc => (make_splitP (path ++ [true]) (leftCountAfterP path cnt l) rc).tree))) ∧
    (∀ path cnt v p, make_splitP path cnt (.pleaf v p) = ⟨cnt, .pleaf v p⟩) ∧
    (∀ t path cnt, childrenParented path t = true →
        childrenParented path (make_splitP path cnt t).tree = true) ∧
    (∀ q t path cnt n, getNodeP t q = some n →
        ∃ n', getNodeP (make_splitP path cnt t).tree q = some n' ∧ parentOf n' = parentOf n) ∧
    splitting_handleP none
      = some (.pdecision none (some (.pleaf "01" (some []))) (some (.pleaf "02" (some [])))) ∧
    childrenParented []
      (.pdecision none (some (.pleaf "01" (some []))) (some (.pleaf "02" (some [])))) = true := by
  refine ⟨fun path cnt p l r => ?_, fun path cnt v p => rfl,
    childrenParented_make_splitP, getNodeP_make_splitP, rfl, rfl⟩
  cases l <;> cases r <;> rfl

/-- C10 witness: splitting a root whose left child is an unparented-slot
decision node yields a correctly parented tree, and a pre-existing leaf
keeps its parent reference. -/
theorem splitting_sets_parents_correctly_witness :
    childrenParented []
      (make_splitP [] 0
        (PTree.pdecision none (some (.pdecision (some []) none none)) none)).tree = true ∧
    (∃ n', getNodeP
        (make_splitP [] 0 (PTree.pdecision none (some (.pleaf "X" (some []))) none)).tree
        [false] = some n' ∧ parentOf n' = parentOf (PTree.pleaf "X" (some []))) :=
  ⟨splitting_sets_parents_correctly.2.2.1 _ [] 0 rfl,
   splitting_sets_parents_correctly.2.2.2.1 [false] _ [] 0 _ rfl⟩

end TreeDesign
